import Mathlib

/-!
# Verification of the gosh file-drop service against its specification

This file gives a shallow embedding, in Lean 4, of the parts of the gosh
source code referenced by the specification claims, and proves or refutes
each claim against that embedding.

Embedding conventions:
* Go strings are modelled as `String` or `List Char` (one entry per rune).
* Go `time.Duration` and `time.Time` are modelled as `Int` nanoseconds;
  `int64` overflow is modelled explicitly by `i64` where the Go code can
  overflow.  Go's truncated division/modulo agree with Lean's `/` and `%`
  on the nonnegative operands used here.
* Fallible Go functions return `Except` or `Option`; stateful code is
  explicit state passing over `StoreState`.
-/

/-- Wrap an integer into the range of Go's `int64`, modelling two's
complement overflow of `int64` arithmetic. -/
def i64 (x : Int) : Int :=
  (x + 2 ^ 63) % 2 ^ 64 - 2 ^ 63

/-! ## Duration grammar (src/internal/util.go)

The Go code defines nanosecond-valued duration constants

```
timeDay   = 24 * time.Hour
timeWeek  = 7 * timeDay
timeMonth = time.Duration(30.44 * float64(timeDay))
timeYear  = 12 * timeMonth
```

`30.44 * float64(timeDay)` evaluates, in IEEE-754 double precision, to
exactly 2630016000000000, so `timeMonth` is the integer below. -/

/-- Go constant `time.Second` in nanoseconds. -/
def timeSecond : Int := 1000000000

/-- Go constant `time.Minute` in nanoseconds. -/
def timeMinute : Int := 60 * timeSecond

/-- Go constant `time.Hour` in nanoseconds. -/
def timeHour : Int := 60 * timeMinute

/-- Go constant `timeDay` from util.go. -/
def timeDay : Int := 24 * timeHour

/-- Go constant `timeWeek` from util.go. -/
def timeWeek : Int := 7 * timeDay

/-- Go constant `timeMonth` from util.go: `time.Duration(30.44 * float64(timeDay))`,
which is exactly 2630016000000000 ns. -/
def timeMonth : Int := 2630016000000000

/-- Go constant `timeYear` from util.go: `12 * timeMonth`. -/
def timeYear : Int := 12 * timeMonth

/-- The ordered unit table of util.go: `durationsOrder = ["y", "mo", "w", "d", "h", "m", "s"]`
paired with the `durations` map values.  The order is the group order of the
regular expression built by `getDurationPattern`. -/
def durTable : List (List Char × Int) :=
  [(['y'], timeYear), (['m', 'o'], timeMonth), (['w'], timeWeek), (['d'], timeDay),
   (['h'], timeHour), (['m'], timeMinute), (['s'], timeSecond)]

/-- Long unit names of util.go's `durationPretty`, keyed by the abbreviation. -/
def durLongName (u : List Char) : List Char :=
  if u = ['y'] then "year".toList
  else if u = ['m', 'o'] then "month".toList
  else if u = ['w'] then "week".toList
  else if u = ['d'] then "day".toList
  else if u = ['h'] then "hour".toList
  else if u = ['m'] then "minute".toList
  else "second".toList

/-- Split the maximal leading run of decimal digits off a character list,
modelling the greedy `\d+` of the duration regular expression. -/
def takeDigits : List Char → List Char × List Char
  | [] => ([], [])
  | c :: cs =>
    if c.isDigit then
      let p := takeDigits cs
      (c :: p.1, p.2)
    else ([], c :: cs)

/-- Match a literal unit string at the head of the input and drop it,
returning the rest; `none` if the input does not start with the unit. -/
def dropLeading : List Char → List Char → Option (List Char)
  | [], rest => some rest
  | _ :: _, [] => none
  | u :: us, c :: cs => if u = c then dropLeading us cs else none

/-- Numeric value of a list of decimal digit characters, as `strconv.Atoi`
computes it for a `\d+` submatch. -/
def digitsVal (ds : List Char) : Nat :=
  ds.foldl (fun a c => a * 10 + (c.toNat - 48)) 0

/-- Try to match one optional regex group `((?P<u>\d+)u)?` at the head of the
input: a nonempty digit run followed by the literal unit `u`.  Returns the
numeric submatch value and the remaining input. -/
def tryGroup (u : List Char) (input : List Char) : Option (Nat × List Char) :=
  let p := takeDigits input
  if p.1.isEmpty then none
  else
    match dropLeading u p.2 with
    | none => none
    | some rest => some (digitsVal p.1, rest)

/-- The group-by-group matching loop of `ParseDuration` (util.go:67-89): the
anchored regular expression `\A((?P<y>\d+)y)?((?P<mo>\d+)mo)?…\z` is matched
group by group in `durationsOrder`; each present submatch is `Atoi`-ed (which
fails above `int64` range) and accumulated by
`d += time.Duration(elemVal) * durations[elemKey]`, an `int64` computation
modelled with `i64`.  The whole input must be consumed or the anchored match
fails with `ErrNoMatch`. -/
def parseDurationGroups : List (List Char × Int) → List Char → Int → Except Unit Int
  | [], input, acc => if input.isEmpty then .ok acc else .error ()
  | (u, v) :: rest, input, acc =>
    match tryGroup u input with
    | none => parseDurationGroups rest input acc
    | some (n, input') =>
      if n ≤ 2 ^ 63 - 1 then
        parseDurationGroups rest input' (i64 (acc + i64 ((n : Int) * v)))
      else .error ()

/-- ParseDuration of util.go on a rune list: the empty string is rejected
up front (`s == ""`), then the anchored regular expression is applied. -/
def parseDurationChars (input : List Char) : Except Unit Int :=
  if input.isEmpty then .error () else parseDurationGroups durTable input 0

/-- ParseDuration of util.go (src/internal/util.go:67-89). -/
def parseDuration (s : String) : Except Unit Int :=
  parseDurationChars s.toList

/-- The greedy decomposition loop of `PrettyDuration` (util.go:92-112): walk
the units largest first; skip a unit whose value exceeds the remaining
duration (`if elemVal > d { continue }`), otherwise emit
`amount = d / elemVal` and continue with `d % elemVal`.  Returns the emitted
`(unit, amount)` components and the final remainder. -/
def decomposeDuration : List (List Char × Int) → Int → List (List Char × Int) × Int
  | [], d => ([], d)
  | (u, v) :: rest, d =>
    if v > d then decomposeDuration rest d
    else
      let p := decomposeDuration rest (d % v)
      ((u, d / v) :: p.1, p.2)

/-- Fuel-bounded decimal rendering loop; the fuel strictly dominates the
number so the recursion is structural and evaluates inside the kernel. -/
def natToDecAux : Nat → Nat → List Char
  | 0, _ => []
  | fuel + 1, n =>
    if n < 10 then [Char.ofNat (48 + n)]
    else natToDecAux fuel (n / 10) ++ [Char.ofNat (48 + n % 10)]

/-- Decimal rendering of a natural number, as Go's `%d` verb prints a
nonnegative `int64`. -/
def natToDec (n : Nat) : List Char :=
  natToDecAux (n + 1) n

/-- One printed component of `PrettyDuration`: `fmt.Fprintf(&b, "%d %s", …)`
plus a plural `s` when the amount exceeds 1, plus the separating space. -/
def renderLongComponent (c : List Char × Int) : List Char :=
  natToDec c.2.toNat ++ [' '] ++ durLongName c.1 ++
    (if c.2 > 1 then ['s'] else []) ++ [' ']

/-- Drop trailing space characters, modelling `strings.TrimRight(b.String(), " ")`. -/
def trimTrailingSpaces (l : List Char) : List Char :=
  (l.reverse.dropWhile (fun c => c = ' ')).reverse

/-- PrettyDuration of util.go on rune lists. -/
def prettyDurationChars (d : Int) : List Char :=
  trimTrailingSpaces (((decomposeDuration durTable d).1.map renderLongComponent).flatten)

/-- PrettyDuration of util.go (src/internal/util.go:92-112); for example
`prettyDuration timeMinute = "1 minute"` as in the repository's own test
`TestPrettyDuration`. -/
def prettyDuration (d : Int) : String :=
  String.mk (prettyDurationChars d)

/-- Modelled from the spec's duration grammar for the amended round-trip
claim: render the decomposition computed by `PrettyDuration` using the
grammar's unit abbreviations (`"90m30s"` style) instead of the long English
names that `PrettyDuration` actually prints. -/
def renderCompactComponent (c : List Char × Int) : List Char :=
  natToDec c.2.toNat ++ c.1

/-- Modelled from the spec's duration grammar: the compact serialization of
`PrettyDuration`'s decomposition of `d`. -/
def compactDurationChars (d : Int) : List Char :=
  ((decomposeDuration durTable d).1.map renderCompactComponent).flatten

/-- Compact grammar form of a duration, as a `String`. -/
def compactDuration (d : Int) : String :=
  String.mk (compactDurationChars d)

/-! ## Data model (src/item.go) -/

/-- OwnerType of item.go: the source of a recorded owner IP address. -/
inductive OwnerType where
  | remoteAddr
  | forwarded
  | xForwardedFor
deriving DecidableEq, Repr

/-- Item of item.go: the metadata record of one upload.  Timestamps are
`Int` nanoseconds; IP addresses are kept as strings. -/
structure Item where
  id : String
  deletionKey : String
  burnAfterReading : Bool
  filename : String
  contentType : String
  created : Int
  expires : Int
  owner : List (OwnerType × String)
deriving DecidableEq, Repr

/-! ## Store engine (src/unnamed/part_008)

The store owns a badgerhold index from ids to `Item`s and a blob directory
with one file per id.  Both are modelled as partial maps; blob contents are
byte lists.  The embedding models a healthy key-value store: `bh.Get`
answers found/not-found and `bh.Insert`/`bh.Delete` succeed exactly as the
map dictates (the code's pass-through of other database failures is not
reachable in this model). -/

/-- State of the store process: the badgerhold index (`/db`) and the blob
file tree (`/data`). -/
structure StoreState where
  index : String → Option Item
  blobs : String → Option (List Nat)

/-- The store state with no index entries and no blob files. -/
def emptyStore : StoreState :=
  { index := fun _ => none, blobs := fun _ => none }

/-- Errors of `Store.createID` (part_008:194-219). -/
inductive CreateIdError where
  | generatorFailed
  | idExhaustion
deriving DecidableEq, Repr

/-- The retry loop body of `Store.createID`: attempt `i` invokes the
pluggable id generator (modelled as the map `gen` from the attempt number to
that invocation's outcome), checks the candidate against the index with
`bh.Get`, skips a candidate that is present (`continue`) and returns a free
one.  `fuel` counts the remaining loop iterations. -/
def createIDAux (gen : Nat → Except Unit String) (index : String → Option Item) :
    Nat → Nat → Except CreateIdError String
  | _, 0 => .error .idExhaustion
  | i, fuel + 1 =>
    match gen i with
    | .error _ => .error .generatorFailed
    | .ok id =>
      match index id with
      | some _ => createIDAux gen index (i + 1) fuel
      | none => .ok id

/-- Store.createID (part_008:194-219): `for i := 0; i < 32; i++`, ending in
the hard error `"failed to calculate a free ID"` when all 32 attempts
collide. -/
def createID (gen : Nat → Except Unit String) (index : String → Option Item) :
    Except CreateIdError String :=
  createIDAux gen index 0 32

/-- Errors reported by `Store.Delete` (part_008:336-354). -/
inductive DeleteError where
  | dbNotFound
  | fileNotFound
deriving DecidableEq, Repr

/-- Store.Delete (part_008:336-354): first `bh.Delete` removes the index
entry — badgerhold returns `ErrNotFound` when the key is absent, which the
method returns at once — then `os.Remove` unlinks the blob, whose failure on
a missing file is likewise returned.  The returned state reflects the
mutations performed before any error. -/
def storeDelete (s : StoreState) (id : String) : StoreState × Option DeleteError :=
  match s.index id with
  | none => (s, some .dbNotFound)
  | some _ =>
    let s1 : StoreState := { s with index := fun x => if x = id then none else s.index x }
    match s1.blobs id with
    | none => (s1, some .fileNotFound)
    | some _ =>
      ({ s1 with blobs := fun x => if x = id then none else s1.blobs x }, none)

/-- The successive primitive effects of `Store.Put` (part_008:272-314), in
the order the method body performs them. -/
inductive PutStep where
  | mintId
  | insertIndex
  | createBlob
  | copyBody
  | closeBody
  | closeBlob
deriving DecidableEq, Repr

/-- The statement sequence of `Store.Put`: `createID`; `bh.Insert(i.ID, i)`;
`os.Create(<storage>/<id>)`; `io.Copy(f, file)`; `file.Close()`;
`f.Close()`. -/
def putSteps : List PutStep :=
  [.mintId, .insertIndex, .createBlob, .copyBody, .closeBody, .closeBlob]

/-- Effect of one `Store.Put` step on the store state, for a put of `item`
with body `body` that minted the id `id`: the index insert stores the item
with its `ID` field set; `os.Create` creates the blob file empty; `io.Copy`
fills it. -/
def execPutStep (id : String) (item : Item) (body : List Nat) (s : StoreState) :
    PutStep → StoreState
  | .mintId => s
  | .insertIndex =>
    { s with index := fun x => if x = id then some { item with id := id } else s.index x }
  | .createBlob => { s with blobs := fun x => if x = id then some [] else s.blobs x }
  | .copyBody => { s with blobs := fun x => if x = id then some body else s.blobs x }
  | .closeBody => s
  | .closeBlob => s

/-- State left behind when `Store.Put` crashes (or fails) after its first
`n` steps: the crash cuts the statement sequence of part_008:272-314 to a
prefix. -/
def putCrashState (id : String) (item : Item) (body : List Nat) (s : StoreState)
    (n : Nat) : StoreState :=
  (putSteps.take n).foldl (execPutStep id item body) s

/-! ## Store RPC client (src/store_rpc.go) -/

/-- Error kinds visible to an RPC caller. -/
inductive RpcError where
  | timeout
  | remote
deriving DecidableEq, Repr

/-- The per-call deadline of `StoreRpcClient.call` (store_rpc.go:121):
`context.WithTimeout(ctx, 3*time.Second)`, in nanoseconds. -/
def rpcCallTimeout : Int := 3 * timeSecond

/-- Result of `ctx.Err()` on `context.Background()`: the background context
is never cancelled and has no deadline, so its `Err()` is always `nil`.
Every call site in webserver.go passes `context.Background()`. -/
def backgroundCtxErr : Option RpcError := none

/-- StoreRpcClient.call (store_rpc.go:120-133): start the call with
`rpcClient.Go`, then `select` between the timeout context's expiry and the
call's completion.  When the reply arrives within the deadline its error is
returned; otherwise the reply is dropped and the method returns
`ctx.Err()` — the error of the PARENT context `ctx`, not of the freshly
created timeout context.  `ctxErr` is the parent's `Err()` at expiry,
`replyDelayNs` the time the reply takes, `replyErr` the server's reply
error. -/
def storeRpcCall (ctxErr : Option RpcError) (replyDelayNs : Int)
    (replyErr : Option RpcError) : Option RpcError :=
  if replyDelayNs ≤ rpcCallTimeout then replyErr else ctxErr

/-! ## Upload lifetime policy (src/item.go:149-161) -/

/-- Failure modes of the `time` form field handling in
`NewItemFromRequest`. -/
inductive LifetimeError where
  | parseFailed
  | lifetimeTooLong
deriving DecidableEq, Repr

/-- The lifetime selection of `NewItemFromRequest` (item.go:149-161): an
absent or empty `time` field selects `maxLifetime`; otherwise the field is
given to `ParseDuration`, a parse failure is returned, a value above
`maxLifetime` is `ErrLifetimeTooLong`, and any other parsed value is
accepted.  The returned duration is what the code adds to `item.Created` to
obtain `item.Expires`. -/
def itemLifetime (timeField : String) (maxLifetime : Int) : Except LifetimeError Int :=
  if timeField = "" then .ok maxLifetime
  else
    match parseDuration timeField with
    | .error _ => .error .parseFailed
    | .ok lt => if lt > maxLifetime then .error .lifetimeTooLong else .ok lt

/-- Expires computation of item.go:152/160: `item.Created.Add(lifetime)`. -/
def itemExpires (created lifetime : Int) : Int :=
  created + lifetime

/-! ## Webserver deletion handler (src/webserver.go:327-379)

The key comparison at webserver.go:361 is `if item.DeletionKey != delKey`,
Go's builtin string comparison.  Its result is plain equality; its cost is
the runtime's `memequal`: unequal lengths are rejected without looking at
any byte, equal lengths are compared byte by byte with an early exit at the
first difference.  The byte-comparison count is modelled explicitly to
settle the constant-time claim. -/

/-- Result of the deletion-key check of webserver.go:361, `item.DeletionKey
!= delKey` negated: `true` means the supplied key is accepted. -/
def deletionKeyMatches (item : Item) (delKey : String) : Bool :=
  item.deletionKey == delKey

/-- Byte comparisons performed by a bytewise equality loop with early exit,
on two equal-length strings. -/
def byteCmpSteps : List Char → List Char → Nat
  | [], _ => 0
  | _, [] => 0
  | a :: as, b :: bs => if a = b then 1 + byteCmpSteps as bs else 1

/-- Cost of Go's string comparison `==`/`!=` as the runtime performs it:
compare lengths first and stop there when they differ, otherwise run the
bytewise loop with early exit. -/
def stringEqSteps (a b : List Char) : Nat :=
  if a.length = b.length then byteCmpSteps a b else 0

/-- Length of the common leading run of two character lists. -/
def commonPrefixLen : List Char → List Char → Nat
  | a :: as, b :: bs => if a = b then 1 + commonPrefixLen as bs else 0
  | _, _ => 0

/-- Outcome of the deletion handler after a successful `Get`
(webserver.go:361-376): HTTP 403 with `msgDeletionKeyWrong` on mismatch,
otherwise `Delete` is called. -/
def handleDeletionKeyCheck (item : Item) (delKey : String) : Bool :=
  deletionKeyMatches item delKey

/-! ## Webserver fetch handler (src/webserver.go:239-325) -/

/-- Errors of `StoreRpcClient.Get` as seen by the webserver. -/
inductive StoreGetError where
  | notFound
  | other
deriving DecidableEq, Repr

/-- Observable outcome of one fetch request: the HTTP status code written,
whether the blob body was streamed to the client, and whether the
burn-after-reading `Delete` call was issued. -/
structure FetchOutcome where
  status : Nat
  bodySent : Bool
  burnDeleteIssued : Bool
deriving DecidableEq, Repr

/-- Server.hasClientCachedRequest (webserver.go:240-247): an unparseable or
absent `If-Modified-Since` header (`imsParse = none`) is not cached;
otherwise the request is cached exactly when `item.Created.Before(ims) &&
item.Expires.After(ims)`. -/
def hasClientCachedRequest (imsParse : Option Int) (item : Item) : Bool :=
  match imsParse with
  | none => false
  | some ims => decide (item.created < ims) && decide (ims < item.expires)

/-- Server.handleRequest (webserver.go:278-325) for a request of `item.id`:
non-GET methods get 405; a `Get` not-found is 404 and other `Get` errors
400; a cached conditional request is answered 304 without a body; otherwise
`handleRequestServe` streams the blob — its only failure is `GetFile`
failing before any streaming, which yields 400 and returns early.  After
either the 304 or a successful serve, a `burn_after_reading` item gets a
`Delete` call (whose own failure is only logged). -/
def handleRequest (method : String) (get : Except StoreGetError Item)
    (imsParse : Option Int) (getFileOk : Bool) : FetchOutcome :=
  if method ≠ "GET" then ⟨405, false, false⟩
  else
    match get with
    | .error .notFound => ⟨404, false, false⟩
    | .error .other => ⟨400, false, false⟩
    | .ok item =>
      if hasClientCachedRequest imsParse item then
        ⟨304, false, item.burnAfterReading⟩
      else if getFileOk then
        ⟨200, true, item.burnAfterReading⟩
      else
        ⟨400, false, false⟩

/-! ## Filename sanitization (src/item.go:86-92, 140-141)

The code sets `item.Filename = filenamePattern.ReplaceAllString(
filepath.Base(filepath.Clean(fileHeader.Filename)), "_")` where
`filenamePattern` matches every single character outside the class
`[0-9A-Za-z-_.]`. -/

/-- Membership in the character class `[0-9A-Za-z-_.]` of
`filenamePattern`. -/
def isAllowedFilenameChar (c : Char) : Bool :=
  ('0' ≤ c && c ≤ '9') || ('A' ≤ c && c ≤ 'Z') || ('a' ≤ c && c ≤ 'z') ||
    c = '-' || c = '_' || c = '.'

/-- Process the slash-separated components of a path for `filepath.Clean`
(Unix rules): empty and `.` components vanish; `..` pops a previous
component when one is there to pop, is dropped at the root, and is kept when
a relative path has nothing left to pop. -/
def cleanComponents (rooted : Bool) : List (List Char) → List (List Char) → List (List Char)
  | acc, [] => acc.reverse
  | acc, comp :: rest =>
    if comp = [] ∨ comp = ['.'] then cleanComponents rooted acc rest
    else if comp = ['.', '.'] then
      match acc with
      | [] => if rooted then cleanComponents rooted [] rest
              else cleanComponents rooted [['.', '.']] rest
      | top :: below =>
        if top = ['.', '.'] then cleanComponents rooted (comp :: acc) rest
        else cleanComponents rooted below rest
    else cleanComponents rooted (comp :: acc) rest

/-- Split a character list at every `/`. -/
def splitSlashes (l : List Char) : List (List Char) :=
  l.splitOn '/'

/-- filepath.Clean for Unix path syntax, by the lexical rules its
documentation states: collapse repeated separators, drop `.` components,
resolve `..` against previous components, keep a leading root, and return
`.` for an emptied relative path. -/
def pathClean (p : List Char) : List Char :=
  if p = [] then ['.']
  else
    let rooted := p.head? = some '/'
    let comps := cleanComponents rooted [] (splitSlashes p)
    let joined := (comps.intersperse ['/']).flatten
    if rooted then '/' :: joined
    else if joined = [] then ['.']
    else joined

/-- filepath.Base for Unix path syntax: empty paths give `.`, trailing
slashes are dropped, all-slash paths give `/`, and otherwise the part after
the last slash remains. -/
def filepathBase (p : List Char) : List Char :=
  if p = [] then ['.']
  else
    let q := (p.reverse.dropWhile (fun c => c = '/')).reverse
    if q = [] then ['/']
    else (q.reverse.takeWhile (fun c => c ≠ '/')).reverse

/-- The sanitized filename of item.go:140-141: clean the uploaded name,
take its basename and replace every character outside `[0-9A-Za-z-_.]` by
`_`. -/
def sanitizeFilename (f : List Char) : List Char :=
  (filepathBase (pathClean f)).map (fun c => if isAllowedFilenameChar c then c else '_')

/-! ## Auxiliary predicates for the duration round-trip analysis -/

/-- A character list that does not begin with a decimal digit (possibly
empty). -/
def headNotDigit : List Char → Prop
  | [] => True
  | c :: _ => c.isDigit = false

/-- A character list that is empty or begins with a decimal digit. -/
def headDigitOrNil : List Char → Prop
  | [] => True
  | c :: _ => c.isDigit = true

/-- Unit `u` can never be matched where unit `w` followed by further
rendered components stands: needed when the group-wise parser skips the
group of `u` because the next rendered component belongs to the later unit
`w`. -/
def unitSkippable (u w : List Char) : Prop :=
  ∀ rest : List Char, headDigitOrNil rest → dropLeading u (w ++ rest) = none

/-- Well-formedness of a unit table for the round-trip argument: positive
values, nonempty abbreviations not starting with a digit, and every
abbreviation unmatchable against any later abbreviation's rendering. -/
def GoodTable : List (List Char × Int) → Prop
  | [] => True
  | (u, v) :: rest =>
    0 < v ∧ u ≠ [] ∧ headNotDigit u ∧ (∀ p ∈ rest, unitSkippable u p.1) ∧ GoodTable rest

/-- Compact grammar rendering of a component list; `compactDurationChars d`
is `renderComps` of `PrettyDuration`'s decomposition of `d`. -/
def renderComps (l : List (List Char × Int)) : List Char :=
  (l.map renderCompactComponent).flatten

/-- A sample item used by concrete witnesses and counterexamples. -/
def itemEx : Item :=
  { id := "a", deletionKey := "k", burnAfterReading := true, filename := "f",
    contentType := "text/plain", created := 0, expires := 10, owner := [] }

/-- A store state holding `itemEx` under id `"a"` with blob bytes `[7]`. -/
def storeWithA : StoreState :=
  { index := fun x => if x = "a" then some itemEx else none,
    blobs := fun x => if x = "a" then some [7] else none }

/-! ## Helper lemmas -/

theorem i64_eq_self {x : Int} (h0 : 0 ≤ x) (h1 : x < 2 ^ 63) : i64 x = x := by
  unfold i64
  omega

theorem charOfNat_digit_toNat {m : Nat} (h : m < 10) :
    (Char.ofNat (48 + m)).toNat = 48 + m := by
  interval_cases m <;> decide

theorem charOfNat_digit_isDigit {m : Nat} (h : m < 10) :
    (Char.ofNat (48 + m)).isDigit = true := by
  interval_cases m <;> decide

theorem natToDecAux_spec :
    ∀ (fuel n : Nat), n < fuel →
      natToDecAux fuel n ≠ [] ∧ (∀ c ∈ natToDecAux fuel n, c.isDigit = true) ∧
        digitsVal (natToDecAux fuel n) = n := by
  intro fuel
  induction fuel with
  | zero => intro n h; exact absurd h (Nat.not_lt_zero n)
  | succ fuel ih =>
    intro n h
    simp only [natToDecAux]
    split
    case isTrue h10 =>
      refine ⟨by simp, ?_, ?_⟩
      · intro c hc
        simp only [List.mem_singleton] at hc
        subst hc
        exact charOfNat_digit_isDigit h10
      · simp only [digitsVal, List.foldl_cons, List.foldl_nil]
        rw [charOfNat_digit_toNat h10]
        omega
    case isFalse h10 =>
      have hdiv : n / 10 < n := Nat.div_lt_self (by omega) (by omega)
      obtain ⟨hne, hdig, hval⟩ := ih (n / 10) (by omega)
      refine ⟨by simp, ?_, ?_⟩
      · intro c hc
        rw [List.mem_append] at hc
        rcases hc with hc | hc
        · exact hdig c hc
        · simp only [List.mem_singleton] at hc
          subst hc
          exact charOfNat_digit_isDigit (Nat.mod_lt n (by omega))
      · simp only [digitsVal, List.foldl_append, List.foldl_cons, List.foldl_nil] at *
        rw [hval, charOfNat_digit_toNat (Nat.mod_lt n (by omega))]
        omega

theorem natToDec_ne_nil (n : Nat) : natToDec n ≠ [] :=
  (natToDecAux_spec (n + 1) n (Nat.lt_succ_self n)).1

theorem natToDec_all_digits (n : Nat) : ∀ c ∈ natToDec n, c.isDigit = true :=
  (natToDecAux_spec (n + 1) n (Nat.lt_succ_self n)).2.1

theorem digitsVal_natToDec (n : Nat) : digitsVal (natToDec n) = n :=
  (natToDecAux_spec (n + 1) n (Nat.lt_succ_self n)).2.2

theorem takeDigits_append {ds rest : List Char} (hds : ∀ c ∈ ds, c.isDigit = true)
    (hrest : headNotDigit rest) : takeDigits (ds ++ rest) = (ds, rest) := by
  induction ds with
  | nil =>
    cases rest with
    | nil => rfl
    | cons c cs =>
      simp only [headNotDigit] at hrest
      simp [takeDigits, hrest]
  | cons c cs ih =>
    have hc : c.isDigit = true := hds c (List.mem_cons_self c cs)
    simp only [List.cons_append, takeDigits, hc, if_true, List.append_eq]
    rw [ih (fun x hx => hds x (List.mem_cons_of_mem c hx))]

theorem dropLeading_append_self (u rest : List Char) :
    dropLeading u (u ++ rest) = some rest := by
  induction u with
  | nil => rfl
  | cons c cs ih => simp [dropLeading, ih]

theorem unitSkippable_head_ne {a b : Char} (us vs : List Char) (h : a ≠ b) :
    unitSkippable (a :: us) (b :: vs) := by
  intro rest _
  simp [dropLeading, h]

theorem unitSkippable_mo_m : unitSkippable ['m', 'o'] ['m'] := by
  intro rest hrest
  cases rest with
  | nil => rfl
  | cons c cs =>
    simp only [headDigitOrNil] at hrest
    have : ('o' : Char) ≠ c := by
      intro hco
      subst hco
      simp at hrest
    simp [dropLeading, this]

theorem renderComps_nil : renderComps [] = [] := rfl

theorem renderComps_cons (c : List Char × Int) (l : List (List Char × Int)) :
    renderComps (c :: l) = renderCompactComponent c ++ renderComps l := by
  simp [renderComps]

theorem decompose_units_mem :
    ∀ (t : List (List Char × Int)) (d : Int), ∀ c ∈ (decomposeDuration t d).1,
      ∃ v, (c.1, v) ∈ t := by
  intro t
  induction t with
  | nil => intro d c hc; simp [decomposeDuration] at hc
  | cons p rest ih =>
    intro d c hc
    obtain ⟨u, v⟩ := p
    simp only [decomposeDuration] at hc
    split at hc
    · obtain ⟨v', hv'⟩ := ih d c hc
      exact ⟨v', List.mem_cons_of_mem _ hv'⟩
    · simp only [List.mem_cons] at hc
      rcases hc with hc | hc
      · subst hc
        exact ⟨v, List.mem_cons_self _ _⟩
      · obtain ⟨v', hv'⟩ := ih (d % v) c hc
        exact ⟨v', List.mem_cons_of_mem _ hv'⟩

theorem goodTable_mem :
    ∀ {t : List (List Char × Int)}, GoodTable t → ∀ {u v}, (u, v) ∈ t →
      u ≠ [] ∧ headNotDigit u := by
  intro t
  induction t with
  | nil => intro _ u v h; simp at h
  | cons p rest ih =>
    intro hg u v h
    obtain ⟨w, x⟩ := p
    obtain ⟨_, hw, hwnd, _, hgrest⟩ := hg
    rcases List.mem_cons.mp h with hc | hc
    · obtain ⟨rfl, rfl⟩ := Prod.mk.injEq .. ▸ And.intro (congrArg Prod.fst hc) (congrArg Prod.snd hc)
      exact ⟨hw, hwnd⟩
    · exact ih hgrest hc

theorem headNotDigit_append {u : List Char} (hu : u ≠ []) (hnd : headNotDigit u)
    (rest : List Char) : headNotDigit (u ++ rest) := by
  cases u with
  | nil => exact absurd rfl hu
  | cons c cs => exact hnd

theorem renderComps_headDigitOrNil (l : List (List Char × Int)) :
    headDigitOrNil (renderComps l) := by
  cases l with
  | nil => trivial
  | cons c l' =>
    rw [renderComps_cons]
    cases hn : natToDec c.2.toNat with
    | nil => exact absurd hn (natToDec_ne_nil _)
    | cons ch cs =>
      have hch : ch.isDigit = true :=
        natToDec_all_digits c.2.toNat ch (hn ▸ List.mem_cons_self ch cs)
      simp only [renderCompactComponent, hn, List.cons_append]
      exact hch

theorem tryGroup_skip {u : List Char} {comps : List (List Char × Int)}
    (h : ∀ c ∈ comps, unitSkippable u c.1 ∧ c.1 ≠ [] ∧ headNotDigit c.1) :
    tryGroup u (renderComps comps) = none := by
  cases comps with
  | nil => rfl
  | cons c l =>
    obtain ⟨hsk, hne, hnd⟩ := h c (List.mem_cons_self c l)
    rw [renderComps_cons]
    simp only [renderCompactComponent, List.append_assoc]
    unfold tryGroup
    rw [takeDigits_append (natToDec_all_digits _) (headNotDigit_append hne hnd _)]
    simp only [List.isEmpty_eq_true]
    rw [if_neg (natToDec_ne_nil _)]
    rw [hsk (renderComps l) (renderComps_headDigitOrNil l)]

theorem tryGroup_matches {u : List Char} (hu : u ≠ []) (hnd : headNotDigit u)
    (q : Nat) (rest : List Char) :
    tryGroup u (natToDec q ++ (u ++ rest)) = some (q, rest) := by
  unfold tryGroup
  rw [takeDigits_append (natToDec_all_digits _) (headNotDigit_append hu hnd _)]
  simp only [List.isEmpty_eq_true]
  rw [if_neg (natToDec_ne_nil _)]
  rw [dropLeading_append_self]
  rw [digitsVal_natToDec]

theorem parseDurationGroups_renderComps :
    ∀ (t : List (List Char × Int)), GoodTable t →
    ∀ d acc : Int, 0 ≤ d → 0 ≤ acc → acc + d < 2 ^ 63 →
    parseDurationGroups t (renderComps (decomposeDuration t d).1) acc
      = .ok (acc + d - (decomposeDuration t d).2) := by
  intro t
  induction t with
  | nil =>
    intro _ d acc _ _ _
    simp only [decomposeDuration, renderComps_nil, parseDurationGroups, List.isEmpty_nil,
      if_true]
    congr 1
    ring
  | cons p rest ih =>
    obtain ⟨u, v⟩ := p
    intro hg d acc hd hacc hbound
    obtain ⟨hv, hu, hnd, hskip, hgrest⟩ := hg
    by_cases hvd : v > d
    · have hdec : decomposeDuration ((u, v) :: rest) d = decomposeDuration rest d := by
        simp only [decomposeDuration, if_pos hvd]
      rw [hdec]
      have hnone : tryGroup u (renderComps (decomposeDuration rest d).1) = none := by
        apply tryGroup_skip
        intro c hc
        obtain ⟨v', hv'⟩ := decompose_units_mem rest d c hc
        obtain ⟨hcne, hcnd⟩ := goodTable_mem hgrest hv'
        exact ⟨hskip (c.1, v') hv', hcne, hcnd⟩
      simp only [parseDurationGroups, hnone]
      exact ih hgrest d acc hd hacc hbound
    · push_neg at hvd
      have hdec : decomposeDuration ((u, v) :: rest) d
          = ((u, d / v) :: (decomposeDuration rest (d % v)).1,
             (decomposeDuration rest (d % v)).2) := by
        simp only [decomposeDuration, if_neg (not_lt.mpr hvd)]
      rw [hdec]
      have hq0 : 0 ≤ d / v := Int.ediv_nonneg hd (le_of_lt hv)
      have hqv : (d / v) * v + d % v = d := by
        rw [mul_comm]
        exact Int.ediv_add_emod d v
      have hr0 : 0 ≤ d % v := Int.emod_nonneg d (ne_of_gt hv)
      have hrv : d % v < v := Int.emod_lt_of_pos d hv
      have hqle : d / v ≤ (d / v) * v := le_mul_of_one_le_right hq0 (by omega)
      have hqled : d / v ≤ d := by linarith
      have hdlt : d < 2 ^ 63 := by linarith
      have hrender : renderComps ((u, d / v) :: (decomposeDuration rest (d % v)).1)
          = natToDec (d / v).toNat ++ (u ++ renderComps (decomposeDuration rest (d % v)).1) := by
        rw [renderComps_cons]
        simp [renderCompactComponent]
      rw [hrender]
      simp only [parseDurationGroups, tryGroup_matches hu hnd]
      have hle : (d / v).toNat ≤ 2 ^ 63 - 1 := by
        rw [Int.toNat_le]
        push_cast
        linarith
      rw [if_pos hle]
      have hcast : (((d / v).toNat : Nat) : Int) = d / v := Int.toNat_of_nonneg hq0
      rw [hcast]
      have hqvnn : 0 ≤ (d / v) * v := mul_nonneg hq0 (le_of_lt hv)
      have hi1 : i64 ((d / v) * v) = (d / v) * v := i64_eq_self hqvnn (by linarith)
      rw [hi1]
      have hi2 : i64 (acc + (d / v) * v) = acc + (d / v) * v :=
        i64_eq_self (by linarith) (by linarith)
      rw [hi2]
      rw [ih hgrest (d % v) (acc + (d / v) * v) hr0 (by linarith) (by linarith)]
      congr 1
      linarith

theorem goodTable_durTable : GoodTable durTable := by
  refine ⟨by norm_num [timeYear, timeMonth], by simp, by simp [headNotDigit], ?_,
    by norm_num [timeMonth], by simp, by simp [headNotDigit], ?_,
    by norm_num [timeWeek, timeDay, timeHour, timeMinute, timeSecond], by simp,
    by simp [headNotDigit], ?_,
    by norm_num [timeDay, timeHour, timeMinute, timeSecond], by simp, by simp [headNotDigit], ?_,
    by norm_num [timeHour, timeMinute, timeSecond], by simp, by simp [headNotDigit], ?_,
    by norm_num [timeMinute, timeSecond], by simp, by simp [headNotDigit], ?_,
    by norm_num [timeSecond], by simp, by simp [headNotDigit], ?_, trivial⟩
  · intro p hp
    fin_cases hp <;> exact unitSkippable_head_ne _ _ (by decide)
  · intro p hp
    fin_cases hp
    · exact unitSkippable_head_ne _ _ (by decide)
    · exact unitSkippable_head_ne _ _ (by decide)
    · exact unitSkippable_head_ne _ _ (by decide)
    · exact unitSkippable_mo_m
    · exact unitSkippable_head_ne _ _ (by decide)
  · intro p hp
    fin_cases hp <;> exact unitSkippable_head_ne _ _ (by decide)
  · intro p hp
    fin_cases hp <;> exact unitSkippable_head_ne _ _ (by decide)
  · intro p hp
    fin_cases hp <;> exact unitSkippable_head_ne _ _ (by decide)
  · intro p hp
    fin_cases hp
    exact unitSkippable_head_ne _ _ (by decide)
  · intro p hp
    simp at hp

theorem decompose_rem_dvd :
    ∀ (t : List (List Char × Int)) (d g : Int), (∀ p ∈ t, g ∣ p.2) → g ∣ d →
      g ∣ (decomposeDuration t d).2 := by
  intro t
  induction t with
  | nil => intro d g _ hd; exact hd
  | cons p rest ih =>
    intro d g ht hd
    obtain ⟨u, v⟩ := p
    have hv : g ∣ v := ht (u, v) (List.mem_cons_self _ _)
    have hrest : ∀ q ∈ rest, g ∣ q.2 := fun q hq => ht q (List.mem_cons_of_mem _ hq)
    simp only [decomposeDuration]
    split
    · exact ih d g hrest hd
    · have hmod : g ∣ d % v := by
        rw [Int.emod_def]
        exact dvd_sub hd (hv.mul_right _)
      exact ih (d % v) g hrest hmod

theorem decompose_rem_bounds :
    ∀ (t : List (List Char × Int)) (u : List Char) (v d : Int), (∀ p ∈ t, 0 < p.2) →
      0 < v → 0 ≤ d →
      0 ≤ (decomposeDuration (t ++ [(u, v)]) d).2 ∧
        (decomposeDuration (t ++ [(u, v)]) d).2 < v := by
  intro t
  induction t with
  | nil =>
    intro u v d _ hv hd
    simp only [List.nil_append, decomposeDuration]
    split
    case isTrue h => exact ⟨hd, h⟩
    case isFalse h =>
      exact ⟨Int.emod_nonneg d (ne_of_gt hv), Int.emod_lt_of_pos d hv⟩
  | cons p rest ih =>
    intro u v d ht hv hd
    obtain ⟨w, x⟩ := p
    have hx : 0 < x := ht (w, x) (List.mem_cons_self _ _)
    have hrest : ∀ q ∈ rest, 0 < q.2 := fun q hq => ht q (List.mem_cons_of_mem _ hq)
    simp only [List.cons_append, decomposeDuration]
    split
    case isTrue h => exact ih u v d hrest hv hd
    case isFalse h =>
      exact ih u v (d % x) hrest hv (Int.emod_nonneg d (ne_of_gt hx))

theorem decompose_comps_ne_nil :
    ∀ (t : List (List Char × Int)) (u : List Char) (v d : Int), v ≤ d →
      (decomposeDuration (t ++ [(u, v)]) d).1 ≠ [] := by
  intro t
  induction t with
  | nil =>
    intro u v d hvd
    simp only [List.nil_append, decomposeDuration, if_neg (not_lt.mpr hvd)]
    simp
  | cons p rest ih =>
    intro u v d hvd
    obtain ⟨w, x⟩ := p
    simp only [List.cons_append, decomposeDuration]
    split
    · exact ih u v d hvd
    · simp

theorem renderComps_ne_nil {c : List Char × Int} {l : List (List Char × Int)} :
    renderComps (c :: l) ≠ [] := by
  rw [renderComps_cons]
  simp only [renderCompactComponent, List.append_assoc, ne_eq, List.append_eq_nil]
  intro h
  exact natToDec_ne_nil _ h.1

/-- C6 counterexample: `PrettyDuration` prints long-form English unit names
with spaces — for `d = time.Minute` it prints `"1 minute"`, exactly as the
repository's own `TestPrettyDuration` expects — and `ParseDuration` rejects
that string, so `parse_duration(pretty_duration(d)) == d` fails even at the
smallest representable multiple of one second above zero handled by the
claim, `d = 60 s`. -/
theorem parse_pretty_duration_fails :
    prettyDuration (60 * timeSecond) = "1 minute" ∧
      parseDuration (prettyDuration (60 * timeSecond)) = .error () := by
  constructor
  · rfl
  · rfl

/-- C6 amended: the literal round trip fails because `PrettyDuration` emits
long unit names; what holds is that `PrettyDuration`'s greedy decomposition
is exact and grammar-compatible: re-rendering the same decomposition with
the grammar's unit abbreviations (`compactDuration`) and parsing gives back
`d`, for every `d ≥ 1 s` that is an integer multiple of 1 s and fits in
`int64`. -/
theorem parse_compact_duration_roundtrip (d : Int) (h1 : timeSecond ≤ d)
    (h2 : timeSecond ∣ d) (h3 : d < 2 ^ 63) :
    parseDuration (compactDuration d) = .ok d := by
  have hsec : (0 : Int) < timeSecond := by norm_num [timeSecond]
  have hd0 : 0 ≤ d := le_trans (le_of_lt hsec) h1
  have hsplit : durTable
      = [(['y'], timeYear), (['m', 'o'], timeMonth), (['w'], timeWeek), (['d'], timeDay),
         (['h'], timeHour), (['m'], timeMinute)] ++ [(['s'], timeSecond)] := by rfl
  have hcomps : (decomposeDuration durTable d).1 ≠ [] := by
    rw [hsplit]
    exact decompose_comps_ne_nil _ _ _ _ h1
  have hchars : compactDurationChars d = renderComps (decomposeDuration durTable d).1 := rfl
  have hne : compactDurationChars d ≠ [] := by
    rw [hchars]
    cases hc : (decomposeDuration durTable d).1 with
    | nil => exact absurd hc hcomps
    | cons c l => exact renderComps_ne_nil
  have hrem0 : (decomposeDuration durTable d).2 = 0 := by
    have hdvd : timeSecond ∣ (decomposeDuration durTable d).2 := by
      apply decompose_rem_dvd
      · intro p hp
        fin_cases hp
        · exact ⟨12 * 2630016, by norm_num [timeYear, timeMonth, timeSecond]⟩
        · exact ⟨2630016, by norm_num [timeMonth, timeSecond]⟩
        · exact ⟨604800, by norm_num [timeWeek, timeDay, timeHour, timeMinute, timeSecond]⟩
        · exact ⟨86400, by norm_num [timeDay, timeHour, timeMinute, timeSecond]⟩
        · exact ⟨3600, by norm_num [timeHour, timeMinute, timeSecond]⟩
        · exact ⟨60, by norm_num [timeMinute, timeSecond]⟩
        · exact ⟨1, by norm_num [timeSecond]⟩
      · exact h2
    have hbounds : 0 ≤ (decomposeDuration durTable d).2 ∧
        (decomposeDuration durTable d).2 < timeSecond := by
      rw [hsplit]
      apply decompose_rem_bounds
      · intro p hp
        fin_cases hp
        · norm_num [timeYear, timeMonth]
        · norm_num [timeMonth]
        · norm_num [timeWeek, timeDay, timeHour, timeMinute, timeSecond]
        · norm_num [timeDay, timeHour, timeMinute, timeSecond]
        · norm_num [timeHour, timeMinute, timeSecond]
        · norm_num [timeMinute, timeSecond]
      · exact hsec
      · exact hd0
    obtain ⟨k, hk⟩ := hdvd
    rw [hk] at hbounds ⊢
    have : k = 0 := by
      norm_num [timeSecond] at hbounds hsec
      omega
    rw [this, mul_zero]
  have hmain := parseDurationGroups_renderComps durTable goodTable_durTable d 0 hd0
    (le_refl 0) (by omega)
  rw [hrem0] at hmain
  show parseDurationChars (String.mk (compactDurationChars d)).toList = .ok d
  have htl : (String.mk (compactDurationChars d)).toList = compactDurationChars d := rfl
  rw [htl]
  unfold parseDurationChars
  rw [if_neg (by simpa [List.isEmpty_eq_true] using hne)]
  rw [hchars, hmain]
  norm_num

/-- Witness for the amended C6 round trip at the concrete duration
90 s = 1 minute 30 seconds, whose compact rendering is `"1m30s"`. -/
theorem parse_compact_duration_roundtrip_witness :
    parseDuration (compactDuration (90 * timeSecond)) = .ok (90 * timeSecond) :=
  parse_compact_duration_roundtrip (90 * timeSecond) (by norm_num [timeSecond])
    (Dvd.intro 90 (by ring)) (by norm_num [timeSecond])

theorem createIDAux_ok :
    ∀ (fuel i : Nat) (gen : Nat → Except Unit String) (index : String → Option Item) (id : String),
      createIDAux gen index i fuel = .ok id →
      index id = none ∧ ∃ j, i ≤ j ∧ j < i + fuel ∧ gen j = .ok id ∧
        ∀ k, i ≤ k → k < j → ∃ c, gen k = .ok c ∧ (index c).isSome := by
  intro fuel
  induction fuel with
  | zero => intro i gen index id h; simp [createIDAux] at h
  | succ fuel ih =>
    intro i gen index id h
    rw [createIDAux] at h
    cases hg : gen i with
    | error e => rw [hg] at h; dsimp only at h; exact absurd h (by simp)
    | ok c =>
      rw [hg] at h
      dsimp only at h
      cases hidx : index c with
      | some it =>
        rw [hidx] at h
        dsimp only at h
        obtain ⟨hnone, j, hij, hjb, hgj, hall⟩ := ih (i + 1) gen index id h
        refine ⟨hnone, j, by omega, by omega, hgj, ?_⟩
        intro k hik hkj
        by_cases hk : k = i
        · subst hk
          exact ⟨c, hg, by rw [hidx]; rfl⟩
        · exact hall k (by omega) hkj
      | none =>
        rw [hidx] at h
        have hcid : c = id := by
          have := h
          simp only [Except.ok.injEq] at this
          exact this
        subst hcid
        exact ⟨hidx, i, le_refl i, by omega, hg, fun k hik hki => absurd hki (by omega)⟩

theorem createIDAux_exhaust :
    ∀ (fuel i : Nat) (gen : Nat → Except Unit String) (index : String → Option Item),
      (∀ j, i ≤ j → j < i + fuel → ∃ c, gen j = .ok c ∧ (index c).isSome) →
      createIDAux gen index i fuel = .error .idExhaustion := by
  intro fuel
  induction fuel with
  | zero => intro i gen index _; rfl
  | succ fuel ih =>
    intro i gen index h
    obtain ⟨c, hc, hsome⟩ := h i (le_refl i) (by omega)
    obtain ⟨it, hit⟩ := Option.isSome_iff_exists.mp hsome
    rw [createIDAux, hc]
    dsimp only
    rw [hit]
    exact ih (i + 1) gen index (fun j hij hjb => h j (by omega) (by omega))

theorem createIDAux_congr :
    ∀ (fuel i : Nat) (gen gen2 : Nat → Except Unit String) (index : String → Option Item),
      (∀ j, i ≤ j → j < i + fuel → gen j = gen2 j) →
      createIDAux gen index i fuel = createIDAux gen2 index i fuel := by
  intro fuel
  induction fuel with
  | zero => intro i gen gen2 index _; rfl
  | succ fuel ih =>
    intro i gen gen2 index h
    rw [createIDAux, createIDAux, ← h i (le_refl i) (by omega)]
    cases gen i with
    | error e => rfl
    | ok c =>
      dsimp only
      cases index c with
      | some it => exact ih (i + 1) gen gen2 index (fun j hij hjb => h j (by omega) (by omega))
      | none => rfl

/-- C5: id minting performs at most 32 attempts — the result only depends on
the first 32 generator outputs —, every returned id was minted on an attempt
whose candidate is free in the index while all earlier attempts produced
candidates already present (rejected and re-minted), and if all 32 attempts
collide the operation fails with the hard error of part_008:218. -/
theorem createID_bounded_retry (gen : Nat → Except Unit String)
    (index : String → Option Item) :
    (∀ id, createID gen index = .ok id →
        index id = none ∧ ∃ j, j < 32 ∧ gen j = .ok id ∧
          ∀ k, k < j → ∃ c, gen k = .ok c ∧ (index c).isSome)
    ∧ ((∀ j, j < 32 → ∃ c, gen j = .ok c ∧ (index c).isSome) →
        createID gen index = .error .idExhaustion)
    ∧ (∀ gen2, (∀ j, j < 32 → gen j = gen2 j) →
        createID gen index = createID gen2 index) := by
  refine ⟨?_, ?_, ?_⟩
  · intro id h
    obtain ⟨hnone, j, _, hjb, hgj, hall⟩ := createIDAux_ok 32 0 gen index id h
    exact ⟨hnone, j, by omega, hgj, fun k hk => hall k (by omega) hk⟩
  · intro h
    exact createIDAux_exhaust 32 0 gen index (fun j _ hj => h j (by omega))
  · intro gen2 h
    exact createIDAux_congr 32 0 gen gen2 index (fun j _ hj => h j (by omega))

/-- Witness for C5: a generator that always mints the already-taken id
`"x"` exhausts all 32 attempts and produces the hard error. -/
theorem createID_bounded_retry_witness :
    createID (fun _ => .ok "x") (fun s => if s = "x" then some itemEx else none)
      = .error .idExhaustion :=
  (createID_bounded_retry _ _).2.1 (fun j _ => ⟨"x", rfl, by simp⟩)

/-- C4: evaluation of `StoreRpcClient.call` at its failing input.  The
per-call deadline is 3 s, but when the deadline elapses first (here a 4 s
reply) the method executes `return ctx.Err()` on the PARENT context; every
call site passes `context.Background()`, whose `Err()` is nil, so the
timed-out call reports success (no error) while the late reply is dropped —
instead of the timeout error the claim (and the surrounding code's evident
intent) requires.  The fix is returning the timeout context's error. -/
theorem rpc_call_timeout_returns_no_error :
    rpcCallTimeout = 3 * 1000000000 ∧
      storeRpcCall backgroundCtxErr (4 * timeSecond) (some .remote) = none := by
  decide

/-- C7 counterexample: the `time` form value `"0s"` parses successfully to
the zero duration and passes the `parseLt > maxLifetime` check, so the
upload is accepted with `expires = created.Add(0) = created`, violating
`expires > created`. -/
theorem zero_lifetime_accepted :
    itemLifetime "0s" timeDay = .ok 0 ∧ itemExpires 5 0 = 5 ∧ ¬ (5 : Int) < itemExpires 5 0 := by
  refine ⟨rfl, rfl, by norm_num [itemExpires]⟩

/-- C7 amended: for every accepted value of the `time` field the resulting
lifetime satisfies `expires - created = lifetime ≤ max_lifetime`, and an
absent field selects exactly `max_lifetime`; strict positivity of
`expires - created` does not hold because zero durations such as `"0s"` are
accepted. -/
theorem item_lifetime_bounded (tf : String) (maxL lt created : Int)
    (h : itemLifetime tf maxL = .ok lt) :
    lt ≤ maxL ∧ itemExpires created lt - created = lt ∧ (tf = "" → lt = maxL) := by
  unfold itemLifetime at h
  split at h
  case isTrue htf =>
    simp only [Except.ok.injEq] at h
    subst h
    exact ⟨le_refl _, by simp [itemExpires], fun _ => rfl⟩
  case isFalse htf =>
    cases hp : parseDuration tf with
    | error e => rw [hp] at h; exact absurd h (by simp)
    | ok lt' =>
      rw [hp] at h
      dsimp only at h
      split at h
      case isTrue hgt => exact absurd h (by simp)
      case isFalse hgt =>
        simp only [Except.ok.injEq] at h
        subst h
        exact ⟨not_lt.mp hgt, by simp [itemExpires], fun he => absurd he htf⟩

/-- Witness for the amended C7 at the accepted field value `"30m"` under a
one-hour maximum lifetime. -/
theorem item_lifetime_bounded_witness :
    30 * timeMinute ≤ timeHour ∧
      itemExpires 0 (30 * timeMinute) - 0 = 30 * timeMinute ∧
      ("30m" = "" → 30 * timeMinute = timeHour) :=
  item_lifetime_bounded "30m" timeHour (30 * timeMinute) 0 rfl

theorem string_toList_inj {s t : String} (h : s.toList = t.toList) : s = t := by
  cases s
  cases t
  exact congrArg String.mk h

theorem byteCmpSteps_of_ne :
    ∀ (a b : List Char), a.length = b.length → a ≠ b →
      byteCmpSteps a b = commonPrefixLen a b + 1 := by
  intro a
  induction a with
  | nil =>
    intro b hlen hne
    cases b with
    | nil => exact absurd rfl hne
    | cons d ds => simp at hlen
  | cons c cs ih =>
    intro b hlen hne
    cases b with
    | nil => simp at hlen
    | cons d ds =>
      by_cases hcd : c = d
      · subst hcd
        have hne' : cs ≠ ds := by
          intro he
          exact hne (by rw [he])
        have hlen' : cs.length = ds.length := by simpa using hlen
        simp only [byteCmpSteps, commonPrefixLen, ite_true, if_pos rfl]
        rw [ih ds hlen' hne']
        omega
      · simp only [byteCmpSteps, commonPrefixLen, if_neg hcd]

/-- C2 counterexample: the deletion-key comparison of webserver.go:361 is
Go's plain string comparison, whose bytewise phase exits at the first
differing byte.  For the six-byte stored key `"abcdef"`, the equal-length
candidate differing in the first byte is decided after one byte comparison
while the candidate differing in the last byte needs six, so the number of
inspected bytes depends on the key bytes — refuting that an equal-length
comparison does not short-circuit. -/
theorem deletion_key_compare_short_circuits :
    ("abcdef".toList).length = ("xbcdef".toList).length ∧
      stringEqSteps "abcdef".toList "xbcdef".toList = 1 ∧
      stringEqSteps "abcdef".toList "abcdex".toList = 6 ∧
      stringEqSteps "abcdef".toList "xbcdef".toList ≠ ("abcdef".toList).length := by
  decide

/-- C2 amended: the supplied key is compared with ordinary string equality
(`item.DeletionKey != delKey`), not a constant-time comparison: the check
accepts exactly the stored key, a mismatched length still returns
immediately (no byte is inspected), but an equal-length comparison
short-circuits after the common leading run plus one byte. -/
theorem deletion_key_plain_equality (item : Item) (k : String) :
    (handleDeletionKeyCheck item k = true ↔ item.deletionKey = k)
    ∧ (item.deletionKey.toList.length ≠ k.toList.length →
        stringEqSteps item.deletionKey.toList k.toList = 0)
    ∧ (item.deletionKey.toList.length = k.toList.length → item.deletionKey ≠ k →
        stringEqSteps item.deletionKey.toList k.toList
          = commonPrefixLen item.deletionKey.toList k.toList + 1) := by
  refine ⟨?_, ?_, ?_⟩
  · simp [handleDeletionKeyCheck, deletionKeyMatches]
  · intro h
    unfold stringEqSteps
    rw [if_neg h]
  · intro hlen hne
    have hne' : item.deletionKey.toList ≠ k.toList := fun he => hne (string_toList_inj he)
    unfold stringEqSteps
    rw [if_pos hlen]
    exact byteCmpSteps_of_ne _ _ hlen hne'

/-- Witness for the amended C2: the stored key `"k"` against the equal-length
wrong key `"z"` is decided after one byte comparison. -/
theorem deletion_key_plain_equality_witness :
    (handleDeletionKeyCheck itemEx "k" = true ↔ itemEx.deletionKey = "k") ∧
      stringEqSteps itemEx.deletionKey.toList ("z".toList)
        = commonPrefixLen itemEx.deletionKey.toList ("z".toList) + 1 :=
  ⟨(deletion_key_plain_equality itemEx "k").1,
   (deletion_key_plain_equality itemEx "z").2.2 (by decide) (by decide)⟩

/-- C3 counterexample: `Store.Delete` is not idempotent.  On a store without
id `"a"`, the badgerhold `Delete` returns `ErrNotFound` and the method
reports it; consequently a second delete right after a successful one is an
error, where the claim requires success. -/
theorem delete_absent_is_error :
    (storeDelete emptyStore "a").2 = some .dbNotFound ∧
      (storeDelete storeWithA "a").2 = none ∧
      (storeDelete (storeDelete storeWithA "a").1 "a").2 = some .dbNotFound := by
  decide

/-- C3 amended: `Store.Delete` succeeds exactly when both the index entry
and the blob are present: an absent index entry yields badgerhold's
not-found error (leaving the state untouched), an absent blob yields the
`os.Remove` error (after the index entry was removed), and a second delete
immediately after a successful one reports the KV not-found error. -/
theorem delete_error_iff (s : StoreState) (id : String) :
    ((storeDelete s id).2 = none ↔ (s.index id).isSome ∧ (s.blobs id).isSome)
    ∧ ((storeDelete s id).2 = none →
        (storeDelete (storeDelete s id).1 id).2 = some .dbNotFound) := by
  constructor
  · cases hidx : s.index id with
    | none => simp [storeDelete, hidx]
    | some it =>
      cases hb : s.blobs id with
      | none => simp [storeDelete, hidx, hb]
      | some bs => simp [storeDelete, hidx, hb]
  · intro h
    cases hidx : s.index id with
    | none => simp [storeDelete, hidx] at h
    | some it =>
      cases hb : s.blobs id with
      | none => simp [storeDelete, hidx, hb] at h
      | some bs => simp [storeDelete, hidx, hb]

/-- Witness for the amended C3 at the concrete one-item store. -/
theorem delete_error_iff_witness :
    (storeDelete (storeDelete storeWithA "a").1 "a").2 = some .dbNotFound :=
  (delete_error_iff storeWithA "a").2 (by decide)

/-- C1 counterexample: `Store.Put` inserts the index entry BEFORE creating
the blob file — `bh.Insert` is part_008:284, `os.Create` is part_008:291 —
so a crash between the two leaves an index entry whose blob is absent,
exactly the partial-failure state the claim rules out, while the claimed
order (blob first, index last) does not match the statement sequence. -/
theorem put_crash_leaves_index_without_blob :
    ((putCrashState "a" itemEx [7] emptyStore 2).index "a").isSome = true ∧
      (putCrashState "a" itemEx [7] emptyStore 2).blobs "a" = none ∧
      putSteps = [.mintId, .insertIndex, .createBlob, .copyBody, .closeBody, .closeBlob] := by
  decide

/-- C1 amended: `Store.Put` mints an id, inserts the index entry, and only
then creates and fills the blob, in that order; consequently at every crash
prefix a present blob implies a present index entry — the only
partial-failure state is an index entry with the blob absent or incomplete —
and a completed put stores the item (with its id set) and the full body. -/
theorem put_crash_blob_implies_index (id : String) (item : Item) (body : List Nat)
    (s : StoreState) (n : Nat) (_hidx : s.index id = none) (hblob : s.blobs id = none) :
    (((putCrashState id item body s n).blobs id).isSome →
      ((putCrashState id item body s n).index id).isSome)
    ∧ (6 ≤ n →
        (putCrashState id item body s n).index id = some { item with id := id } ∧
        (putCrashState id item body s n).blobs id = some body) := by
  rcases n with _ | _ | _ | _ | _ | _ | n
  · exact ⟨by simp [putCrashState, putSteps, hblob], by omega⟩
  · exact ⟨by simp [putCrashState, putSteps, execPutStep, hblob], by omega⟩
  · exact ⟨by simp [putCrashState, putSteps, execPutStep, hblob], by omega⟩
  · exact ⟨by simp [putCrashState, putSteps, execPutStep], by omega⟩
  · exact ⟨by simp [putCrashState, putSteps, execPutStep], by omega⟩
  · exact ⟨by simp [putCrashState, putSteps, execPutStep], by omega⟩
  · have htake : putSteps.take (n + 6) = putSteps :=
      List.take_of_length_le (by simp [putSteps])
    constructor
    · intro _
      simp [putCrashState, htake, putSteps, execPutStep]
    · intro _
      constructor
      · simp [putCrashState, htake, putSteps, execPutStep]
      · simp [putCrashState, htake, putSteps, execPutStep]

/-- Witness for the amended C1: a completed put of `itemEx` with body `[7]`
into the empty store leaves both the index entry and the blob. -/
theorem put_crash_blob_implies_index_witness :
    (putCrashState "a" itemEx [7] emptyStore 6).index "a" = some { itemEx with id := "a" } ∧
      (putCrashState "a" itemEx [7] emptyStore 6).blobs "a" = some [7] :=
  (put_crash_blob_implies_index "a" itemEx [7] emptyStore 6 rfl rfl).2 (by omega)

/-- C8: for a GET of an existing item carrying a parseable
`If-Modified-Since` value, the response is 304 exactly when the value lies
strictly between `created` and `expires`; in particular a value equal to
`created` falls outside the strict interval and the full body is served
(when the blob opens). -/
theorem conditional_get_strictly_between (item : Item) (ims : Int) (getFileOk : Bool) :
    ((handleRequest "GET" (.ok item) (some ims) getFileOk).status = 304 ↔
      item.created < ims ∧ ims < item.expires)
    ∧ (ims = item.created → getFileOk = true →
        handleRequest "GET" (.ok item) (some ims) getFileOk
          = ⟨200, true, item.burnAfterReading⟩) := by
  constructor
  · by_cases h1 : item.created < ims <;> by_cases h2 : ims < item.expires <;>
      cases getFileOk <;>
      simp [handleRequest, hasClientCachedRequest, h1, h2]
  · intro he hg
    subst he
    subst hg
    simp [handleRequest, hasClientCachedRequest]

/-- Witness for C8: with `created = 0`, `expires = 10`, the header value 5
is answered 304, and the header value 0 (equal to `created`) is served. -/
theorem conditional_get_strictly_between_witness :
    (handleRequest "GET" (.ok itemEx) (some 5) true).status = 304 ∧
      handleRequest "GET" (.ok itemEx) (some 0) true
        = ⟨200, true, itemEx.burnAfterReading⟩ :=
  ⟨(conditional_get_strictly_between itemEx 5 true).1.mpr (by decide),
   (conditional_get_strictly_between itemEx 0 true).2 (by decide) rfl⟩

/-- C10: for a burn-after-reading item whose conditional-GET check succeeds,
the server answers 304 with no body and still issues the burn deletion; the
deletion is skipped exactly when the request is not answered from cache and
`GetFile` fails before streaming. -/
theorem burn_issued_after_not_modified (item : Item) (imsParse : Option Int)
    (getFileOk : Bool) (hburn : item.burnAfterReading = true) :
    (hasClientCachedRequest imsParse item = true →
      handleRequest "GET" (.ok item) imsParse getFileOk = ⟨304, false, true⟩)
    ∧ ((handleRequest "GET" (.ok item) imsParse getFileOk).burnDeleteIssued = false ↔
        hasClientCachedRequest imsParse item = false ∧ getFileOk = false) := by
  constructor
  · intro hc
    simp [handleRequest, hc, hburn]
  · by_cases hc : hasClientCachedRequest imsParse item = true
    · simp [handleRequest, hc, hburn]
    · have hc' : hasClientCachedRequest imsParse item = false :=
        Bool.not_eq_true _ ▸ eq_false_of_ne_true hc
      cases getFileOk <;> simp [handleRequest, hc', hburn]

/-- Witness for C10: the sample burn item with a cached conditional request
is answered 304 and burned. -/
theorem burn_issued_after_not_modified_witness :
    handleRequest "GET" (.ok itemEx) (some 5) true = ⟨304, false, true⟩ :=
  (burn_issued_after_not_modified itemEx (some 5) true rfl).1 (by decide)

/-- C9: every character of the sanitized filename lies in the class
`[0-9A-Za-z-_.]` — the replacement pass rewrites every character outside the
class to an underscore, and the underscore itself is in the class — and in
particular the path separator `/` never occurs in a sanitized filename. -/
theorem sanitize_filename_charset (f : List Char) :
    (∀ c ∈ sanitizeFilename f, isAllowedFilenameChar c = true) ∧
      '/' ∉ sanitizeFilename f := by
  have hall : ∀ c ∈ sanitizeFilename f, isAllowedFilenameChar c = true := by
    intro c hc
    unfold sanitizeFilename at hc
    rw [List.mem_map] at hc
    obtain ⟨x, _, rfl⟩ := hc
    by_cases hx : isAllowedFilenameChar x = true
    · simp [hx]
    · simp only [hx, Bool.false_eq_true, if_false]
      decide
  refine ⟨hall, fun hmem => ?_⟩
  have := hall '/' hmem
  simp [isAllowedFilenameChar] at this

/-- Witness for C9 at the upload filename of the spec's scenario 4,
`"../evil name.html"`, which sanitizes to `"evil_name.html"`. -/
theorem sanitize_filename_charset_witness :
    isAllowedFilenameChar 'e' = true ∧
      '/' ∉ sanitizeFilename ("../evil name.html".toList) ∧
      sanitizeFilename ("../evil name.html".toList) = "evil_name.html".toList :=
  ⟨(sanitize_filename_charset ("../evil name.html".toList)).1 'e' (by decide),
   (sanitize_filename_charset ("../evil name.html".toList)).2, by decide⟩
